import Mathlib

/-!
# Verification of the line-log query engine (`src/exercises/exercise-14/database.ts`)

Shallow embedding of the query engine: an append-only, newline-delimited
record log is loaded, filtered by a query (field rules `$eq/$gt/$lt/$in`,
combinators `$and/$or`, full-text `$text`), then optionally sorted and
projected.

Modelling conventions:
* A JavaScript runtime value held in a record field is `JVal`:
  a string, a number (modelled as `Int`; every value appearing in the store
  examples is an integer), a boolean, or `undefined` (`JVal.undef`) — the
  value produced by reading an absent property.
* A JavaScript object is `Obj`, an association list in property insertion
  order.  JavaScript objects never hold two properties with the same key,
  and assignment to an existing key keeps its position (`setField`).
* `JSON.parse` is modelled by `parseJsonObj`, restricted to the encodings
  the backing store uses: a flat object literal with no whitespace, string
  values without escape sequences, integer numerals, and `true`/`false`.
  Any other input is a parse failure.
* The asynchronous `readFile` is modelled by an `Option String` input to
  `find`: `none` is an unreadable store, `some s` a store with contents `s`.
  Rejection of the returned promise is `Except.error`.
-/

inductive JVal where
  | undef : JVal
  | str : String → JVal
  | num : Int → JVal
  | bool : Bool → JVal
deriving DecidableEq, Repr

/-- A JavaScript object: fields in insertion order, keys pairwise distinct. -/
abbrev Obj := List (String × JVal)

/-- Reading `o[k]`: the value of the property, or `undefined` when absent. -/
def getField (o : Obj) (k : String) : JVal :=
  match o.find? (fun p => p.1 = k) with
  | some p => p.2
  | none => JVal.undef

/-- Whether the property `k` is present, together with its value: this
distinguishes a key explicitly holding `undefined` from an absent key. -/
def lookupEntry (o : Obj) (k : String) : Option JVal :=
  (o.find? (fun p => p.1 = k)).map (fun p => p.2)

def hasKey (o : Obj) (k : String) : Bool :=
  o.any (fun p => p.1 = k)

/-- Property assignment `o[k] = v`: overwrites in place when the key exists
(keeping its position), otherwise appends the new property. -/
def setField (o : Obj) (k : String) (v : JVal) : Obj :=
  if hasKey o k then o.map (fun p => if p.1 = k then (k, v) else p)
  else o ++ [(k, v)]

-- Characters written via their code points so bracket characters never
-- appear literally in the file.
def lbraceC : Char := Char.ofNat 123
def rbraceC : Char := Char.ofNat 125
def quoteC : Char := Char.ofNat 34

/-- Parses the body of a string literal after its opening quote: the
characters up to the closing quote (no escape sequences). -/
def parseStrChars : List Char → Option (List Char × List Char)
  | [] => none
  | c :: rest =>
    if c = quoteC then some ([], rest)
    else
      match parseStrChars rest with
      | some pr => some (c :: pr.1, pr.2)
      | none => none

def takeDigits : List Char → (List Char × List Char)
  | [] => ([], [])
  | c :: rest =>
    if c.isDigit then
      let p := takeDigits rest
      (c :: p.1, p.2)
    else ([], c :: rest)

def digitsToNat (ds : List Char) : Nat :=
  ds.foldl (fun acc c => acc * 10 + (c.toNat - 48)) 0

/-- Parses an integer numeral (optional leading minus). -/
def parseNumLit (cs : List Char) : Option (Int × List Char) :=
  match cs with
  | [] => none
  | c :: rest =>
    if c = '-' then
      match takeDigits rest with
      | ([], _) => none
      | (ds, r) => some (-(digitsToNat ds : Int), r)
    else
      match takeDigits cs with
      | ([], _) => none
      | (ds, r) => some ((digitsToNat ds : Int), r)

/-- Parses one JSON scalar value: string, integer, `true` or `false`. -/
def parseVal (cs : List Char) : Option (JVal × List Char) :=
  match cs with
  | [] => none
  | c :: rest =>
    if c = quoteC then
      (parseStrChars rest).map (fun pr => (JVal.str (String.mk pr.1), pr.2))
    else if c = 't' then
      match rest with
      | 'r' :: 'u' :: 'e' :: r => some (JVal.bool true, r)
      | _ => none
    else if c = 'f' then
      match rest with
      | 'a' :: 'l' :: 's' :: 'e' :: r => some (JVal.bool false, r)
      | _ => none
    else (parseNumLit cs).map (fun pr => (JVal.num pr.1, pr.2))

/-- Parses the `"key":value` entries of an object body up to and including
the closing brace, which must end the input (as `JSON.parse` rejects
trailing characters).  Duplicate keys overwrite, as in JavaScript. -/
def parseEntries (v : Obj) : Nat → List Char → Option Obj
  | 0, _ => none
  | Nat.succ fuel, cs =>
    match cs with
    | [] => none
    | c :: rest =>
      if c = quoteC then
        match parseStrChars rest with
        | some (keyCs, afterKey) =>
          match afterKey with
          | ':' :: afterColon =>
            match parseVal afterColon with
            | some (val, afterVal) =>
              let v2 := setField v (String.mk keyCs) val
              match afterVal with
              | ',' :: more => parseEntries v2 fuel more
              | [rb] => if rb = rbraceC then some v2 else none
              | _ => none
            | none => none
          | _ => none
        | none => none
      else none

/-- Models `JSON.parse` on the flat object literals used by the backing
store (see the module docstring for the documented restrictions). -/
def parseJsonObj (cs : List Char) : Option Obj :=
  match cs with
  | [] => none
  | c :: rest =>
    if c = lbraceC then
      if rest = [rbraceC] then some ([] : Obj)
      else parseEntries [] (rest.length + 1) rest
    else none

/-! ## Field rules and predicate evaluation (source lines 14-23, 61-199) -/

/-- A field rule object `QueryRule` from the source: each operator key is
optional (`qeq` is `$eq`, `qgt` is `$gt`, `qlt` is `$lt`, `qin` is `$in`). -/
structure QueryRule where
  qeq : Option JVal
  qgt : Option Int
  qlt : Option Int
  qin : Option (List JVal)
deriving DecidableEq, Repr

/-- The rule with no operator present. -/
def QueryRule.none : QueryRule := ⟨Option.none, Option.none, Option.none, Option.none⟩

/-- `$eq`: strict equality, checked only when the field value is a string or
a number at runtime; any other runtime type yields `false`. -/
def opEq (data : Obj) (key : String) (value : JVal) : Bool :=
  match getField data key with
  | JVal.str s => JVal.str s == value
  | JVal.num n => JVal.num n == value
  | _ => false

/-- `$gt`: numeric greater-than, `false` unless the field value is a number. -/
def opGt (data : Obj) (key : String) (value : Int) : Bool :=
  match getField data key with
  | JVal.num n => value < n
  | _ => false

/-- `$lt`: numeric less-than, `false` unless the field value is a number. -/
def opLt (data : Obj) (key : String) (value : Int) : Bool :=
  match getField data key with
  | JVal.num n => n < value
  | _ => false

/-- `$in`: membership of the field value in the operand collection
(`indexOf > -1`), checked only for string- or number-valued fields. -/
def opIn (data : Obj) (key : String) (value : List JVal) : Bool :=
  match getField data key with
  | JVal.num n => value.contains (JVal.num n)
  | JVal.str s => value.contains (JVal.str s)
  | _ => false

/-- `ruleHeadless`: every operator present in the rule must pass (the
source's early-return chain is this conjunction). -/
def ruleHeadless (data : Obj) (key : String) (ruleOpt : QueryRule) : Bool :=
  (match ruleOpt.qeq with | some v => opEq data key v | Option.none => true) &&
  (match ruleOpt.qgt with | some v => opGt data key v | Option.none => true) &&
  (match ruleOpt.qlt with | some v => opLt data key v | Option.none => true) &&
  (match ruleOpt.qin with | some v => opIn data key v | Option.none => true)

/-! ## Boolean combinators (source lines 127-164) -/

/-- A `Param` object: one field rule per field, fields in key order. -/
abbrev Param := List (String × QueryRule)

/-- `$and`: builds one predicate list per rule set, then keeps the records
on which every rule of every rule set passes (`every` over `every`). -/
def andComb (arr : List Obj) (opts : List Param) : List Obj :=
  let rules := opts.map (fun val =>
    val.map (fun p => fun (data : Obj) => ruleHeadless data p.1 p.2))
  arr.filter (fun val =>
    (rules.map (fun rule => (rule.map (fun r => r val)).all (fun value => value))).all
      (fun value => value))

/-- `$or`: the same predicate lists, but a record survives when at least one
rule set passes in full (`some` over `every`). -/
def orComb (arr : List Obj) (opts : List Param) : List Obj :=
  let rules := opts.map (fun val =>
    val.map (fun p => fun (data : Obj) => ruleHeadless data p.1 p.2))
  arr.filter (fun val =>
    (rules.map (fun rule => (rule.map (fun r => r val)).all (fun value => value))).any
      (fun value => value))

/-! ## Full-text matcher (source lines 263-275)

The source builds one global regular expression from the lower-cased phrase
and calls `re.test` on each lower-cased string value of each record.  A
global JavaScript regex carries its `lastIndex` across calls to `test`:
a successful test leaves `lastIndex` at the end of the match and the next
test resumes searching from there; a failed test resets it to `0`.  The
model below reproduces the search the engine performs for the pattern built
from a phrase made of word characters (on phrases containing pattern
metacharacters the spec itself declares the behaviour undefined). -/

/-- A regex word character (the `\w` class): ASCII letter, digit or `_`. -/
def isWordChar (c : Char) : Bool := c.isAlpha || c.isDigit || c = '_'

/-- Whether the word `w` occurs in `s` at position `i` with a word boundary
on both sides. -/
def matchWordAt (w s : List Char) (i : Nat) : Bool :=
  ((s.drop i).take w.length == w) &&
  (i == 0 || !(isWordChar (s.getD (i - 1) ' '))) &&
  (i + w.length == s.length || !(isWordChar (s.getD (i + w.length) ' ')))

/-- First whole-word match position at or after `i` (the fuel counts the
remaining candidate positions). -/
def searchFrom (w s : List Char) : Nat → Nat → Option Nat
  | _, 0 => Option.none
  | i, Nat.succ fuel =>
    if matchWordAt w s i then some i else searchFrom w s (i + 1) fuel

/-- One call to `re.test(s)` on a global regex: searching starts at
`lastIndex`; success returns the new `lastIndex` (the match end), failure
resets it to `0`. -/
def regexTestG (w s : List Char) (lastIndex : Nat) : Bool × Nat :=
  if s.length < lastIndex then (false, 0)
  else
    match searchFrom w s lastIndex (s.length + 1 - lastIndex) with
    | some i => (true, i + w.length)
    | Option.none => (false, 0)

def lowerChars (s : List Char) : List Char := s.map Char.toLower

/-- Tests one field value: non-string values are `false` and leave the
regex state untouched; string values are lower-cased and tested. -/
def textTestVal (w : List Char) (st : Nat) (v : JVal) : Bool × Nat :=
  match v with
  | JVal.str s => regexTestG w (lowerChars s.data) st
  | _ => (false, st)

/-- Tests one record: the source maps the test over `Object.values` (so
every value is tested, threading the regex state) and then takes `some`. -/
def textTestRec (w : List Char) (st : Nat) (o : Obj) : Bool × Nat :=
  (o.map (fun p => p.2)).foldl
    (fun acc v =>
      let r := textTestVal w acc.2 v
      (acc.1 || r.1, r.2))
    (false, st)

/-- The `$text` filter over the record list, threading the shared regex
state from record to record. -/
def textFilterAux (w : List Char) (st : Nat) : List Obj → List Obj
  | [] => []
  | o :: rest =>
    let r := textTestRec w st o
    if r.1 then o :: textFilterAux w r.2 rest
    else textFilterAux w r.2 rest

/-- The `$text` branch of `find`: lower-cases the phrase, builds the regex
(fresh, so `lastIndex` starts at `0`) and filters. -/
def textFilter (phrase : String) (recs : List Obj) : List Obj :=
  textFilterAux (lowerChars phrase.data) 0 recs

/-! ## Result shaping: sort and projection (source lines 201-236) -/

/-- A sort direction, the `1 | -1` type of `ParamEndRule`. -/
inductive Dir where
  | asc : Dir
  | desc : Dir
deriving DecidableEq, Repr

def Dir.toInt : Dir → Int
  | Dir.asc => 1
  | Dir.desc => -1

/-- `Number(v)` coercion of a field value: numbers are themselves, booleans
coerce to `0`/`1`, a digit string (optionally signed, the empty string
giving `0`) coerces to its value, everything else is `NaN` (`none`). -/
def numCoerce (v : JVal) : Option Int :=
  match v with
  | JVal.num n => some n
  | JVal.bool b => some (if b then 1 else 0)
  | JVal.undef => Option.none
  | JVal.str s =>
    match s.data with
    | [] => some 0
    | '-' :: ds => if ds ≠ [] && ds.all Char.isDigit then some (-(digitsToNat ds : Int)) else Option.none
    | ds => if ds.all Char.isDigit then some ((digitsToNat ds : Int)) else Option.none

/-- The comparator `Number(opt[v]) * (aVal - bVal)` of one sort pass.  When
either coercion is `NaN` the comparator result is `NaN`, which the sort
machinery treats as `+0` (ECMAScript `SortCompare`). -/
def sortCmp (k : String) (d : Dir) (a b : Obj) : Int :=
  match numCoerce (getField a k), numCoerce (getField b k) with
  | some x, some y => d.toInt * (x - y)
  | _, _ => 0

/-- The ordering a comparator-based stable sort establishes: `a` may stay
before `b` when the comparator does not require the swap. -/
def cmpLe (k : String) (d : Dir) (a b : Obj) : Bool :=
  sortCmp k d a b ≤ 0

/-- Stable insertion into a sorted list: the new element (earlier in the
original list) is placed before the first element it compares `≤` to, hence
before elements comparing equal to it. -/
def ordInsert (le : α → α → Bool) (a : α) : List α → List α
  | [] => [a]
  | b :: l => if le a b then a :: b :: l else b :: ordInsert le a l

/-- A stable comparator sort, the model of `Array.prototype.sort` (which
ECMAScript requires to be stable). -/
def insSort (le : α → α → Bool) : List α → List α
  | [] => []
  | a :: l => ordInsert le a (insSort le l)

/-- One `arr.sort(...)` pass of the source `sort` for the field `k` with
direction `d`. -/
def sortOnePass (k : String) (d : Dir) (arr : List Obj) : List Obj :=
  insSort (cmpLe k d) arr

/-- The contents produced by the source `sort`: one in-place pass per listed
field, each pass re-sorting the same array, i.e. the previous pass's
contents. -/
def sortContents (arr : List Obj) (opt : List (String × Dir)) : List Obj :=
  opt.foldl (fun result p => sortOnePass p.1 p.2 result) arr

/-- One call to the source `sort`, additionally recording what the caller
observes of the argument array: `Array.prototype.sort` reorders the
receiver in place and returns the receiver itself, so after the call the
argument array holds the final pass's contents and the returned array is
that very array, not a fresh one. -/
structure SortCall where
  result : List Obj
  argAfter : List Obj
  returnsNewArray : Bool
deriving DecidableEq, Repr

def sortCall (arr : List Obj) (opt : List (String × Dir)) : SortCall :=
  let final := sortContents arr opt
  ⟨final, final, false⟩

/-- `projection`: for each record, a fresh object is built by assigning
`obj[key] = v[key]` for every listed key in listed order. -/
def projectOne (ks : List String) (v : Obj) : Obj :=
  ks.foldl (fun obj key => setField obj key (getField v key)) []

def projection (arr : List Obj) (opt : List (String × Dir)) : List Obj :=
  arr.map (projectOne (opt.map (fun p => p.1)))

/-- The optional end rule: `sort` then `projection` (source `EndRule`). -/
structure EndRule where
  sortOpt : Option (List (String × Dir))
  projOpt : Option (List (String × Dir))

/-- `endHeadless`: applies the sort directive then the projection
directive, each only when present. -/
def endHeadless (arr : List Obj) (options : EndRule) : List Obj :=
  let r1 := match options.sortOpt with
    | some s => sortContents arr s
    | Option.none => arr
  match options.projOpt with
  | some p => projection r1 p
  | Option.none => r1

/-! ## Record loader and query executor (source lines 3-12, 238-287) -/

/-- The failure modes of a `find` call. -/
inductive DbError where
  | ioError : DbError
  | parseError : DbError
deriving DecidableEq, Repr

/-- `str.split('\n')`. -/
def splitLines : List Char → List (List Char)
  | [] => [[]]
  | c :: rest =>
    if c = '\n' then [] :: splitLines rest
    else
      match splitLines rest with
      | [] => [[c]]
      | l :: ls => (c :: l) :: ls

/-- The retained lines: `v[0] === 'E'` (an empty line has no first
character and is dropped). -/
def retainedLines (text : String) : List (List Char) :=
  (splitLines text.data).filter (fun v => v.head? = some 'E')

/-- `JSON.parse(v.slice(1))` mapped over the retained lines: the first
parse failure aborts the whole map, as a thrown exception does. -/
def parseAll : List (List Char) → Except DbError (List Obj)
  | [] => Except.ok []
  | v :: rest =>
    match parseJsonObj (v.drop 1) with
    | Option.none => Except.error DbError.parseError
    | some o =>
      match parseAll rest with
      | Except.error e => Except.error e
      | Except.ok os => Except.ok (o :: os)

/-- The load step of `find`: split, retain the `'E'`-tagged lines, parse
each payload, in file order. -/
def loadRecords (text : String) : Except DbError (List Obj) :=
  parseAll (retainedLines text)

/-- One top-level key of a query object, in the order `Object.keys`
enumerates them: `$and`, `$or`, `$text`, or a plain field name with its
rule object. -/
inductive QueryEntry where
  | qAnd : List Param → QueryEntry
  | qOr : List Param → QueryEntry
  | qText : String → QueryEntry
  | qField : String → QueryRule → QueryEntry

/-- Dispatch of one top-level query key (the branches of the source's
`Object.keys(query).forEach`). -/
def applyEntry (result : List Obj) (e : QueryEntry) : List Obj :=
  match e with
  | QueryEntry.qAnd opts => andComb result opts
  | QueryEntry.qOr opts => orComb result opts
  | QueryEntry.qText phrase => textFilter phrase result
  | QueryEntry.qField key opt => result.filter (fun val => ruleHeadless val key opt)

abbrev Query := List QueryEntry

/-- The sequential narrowing of the result set over the query's keys. -/
def runQuery (recs : List Obj) (q : Query) : List Obj :=
  q.foldl applyEntry recs

/-- `Database.find`: reads the store (`none` models an unreadable store and
rejects), loads the records, threads them through the query keys, applies
the end rule when present.  `Except` is the settled promise: an `error` is
a rejection carrying no result, an `ok` the complete result array. -/
def find (fileContents : Option String) (query : Query) (options : Option EndRule) :
    Except DbError (List Obj) :=
  match fileContents with
  | Option.none => Except.error DbError.ioError
  | some str =>
    match loadRecords str with
    | Except.error e => Except.error e
    | Except.ok sqlData =>
      let result := runQuery sqlData query
      Except.ok (match options with
        | some o => endHeadless result o
        | Option.none => result)

/-! ## Example data (the section-8 store and auxiliary inputs) -/

def JVal.isNum : JVal → Bool
  | JVal.num _ => true
  | _ => false

def JVal.isStr : JVal → Bool
  | JVal.str _ => true
  | _ => false

/-- The four-line example store. -/
def store8 : String :=
  "E\x7b\"name\":\"Ann\",\"age\":30\x7d\nE\x7b\"name\":\"Bo\",\"age\":20\x7d\nX\x7b\"ignored\":true\x7d\nE\x7b\"name\":\"Cy\",\"age\":25\x7d"

def annR : Obj := [("name", JVal.str "Ann"), ("age", JVal.num 30)]
def boR : Obj := [("name", JVal.str "Bo"), ("age", JVal.num 20)]
def cyR : Obj := [("name", JVal.str "Cy"), ("age", JVal.num 25)]

/-- The field rule `\x7b$gt: 21\x7d`. -/
def gt21Rule : QueryRule := ⟨Option.none, some 21, Option.none, Option.none⟩

/-- A store whose two records both carry the string `"ann"` in a field. -/
def twoAnnStore : String :=
  "E\x7b\"name\":\"ann\"\x7d\nE\x7b\"name\":\"ann\"\x7d"

def annLowerR : Obj := [("name", JVal.str "ann")]

/-- Records distinguishing sequential-pass sorting from composite-key
sorting: sorted by `a` then by `b`, the `b` pass alone decides the order. -/
def recA2B1 : Obj := [("a", JVal.num 2), ("b", JVal.num 1)]
def recA1B2 : Obj := [("a", JVal.num 1), ("b", JVal.num 2)]

/-! ## Shared lemmas -/

theorem perm_ordInsert {α : Type} (le : α → α → Bool) (a : α) (l : List α) :
    (ordInsert le a l).Perm (a :: l) := by
  induction l with
  | nil => simp [ordInsert]
  | cons b l ih =>
    by_cases h : le a b = true
    · simp [ordInsert, h]
    · simp only [ordInsert, h]
      rw [if_neg]
      · exact (ih.cons b).trans (List.Perm.swap a b l)
      · simp [h]

theorem perm_insSort {α : Type} (le : α → α → Bool) (l : List α) :
    (insSort le l).Perm l := by
  induction l with
  | nil => simp [insSort]
  | cons a l ih =>
    exact (perm_ordInsert le a (insSort le l)).trans (ih.cons a)

theorem mem_ordInsert {α : Type} (le : α → α → Bool) (a x : α) (l : List α) :
    x ∈ ordInsert le a l ↔ x = a ∨ x ∈ l := by
  rw [(perm_ordInsert le a l).mem_iff, List.mem_cons]

theorem perm_sortContents (opt : List (String × Dir)) (arr : List Obj) :
    (sortContents arr opt).Perm arr := by
  induction opt generalizing arr with
  | nil => simp [sortContents]
  | cons p opt ih =>
    have h1 : sortContents arr (p :: opt) = sortContents (sortOnePass p.1 p.2 arr) opt := rfl
    rw [h1]
    exact (ih (sortOnePass p.1 p.2 arr)).trans (perm_insSort (cmpLe p.1 p.2) arr)

theorem sorted_ordInsert {α : Type} (le : α → α → Bool) (P : α → Prop)
    (htot : ∀ a b, le a b = true ∨ le b a = true)
    (htr : ∀ a b c, P a → P b → P c → le a b = true → le b c = true → le a c = true)
    (a : α) (l : List α) (hPa : P a) (hPl : ∀ x ∈ l, P x)
    (hs : l.Pairwise (fun x y => le x y = true)) :
    (ordInsert le a l).Pairwise (fun x y => le x y = true) := by
  induction l with
  | nil => simp [ordInsert]
  | cons b l ih =>
    rcases List.pairwise_cons.mp hs with ⟨hb, hl⟩
    by_cases h : le a b = true
    · simp only [ordInsert, h, if_true]
      refine List.pairwise_cons.mpr ⟨?_, hs⟩
      intro y hy
      rcases List.mem_cons.mp hy with hy | hy
      · exact hy ▸ h
      · exact htr a b y hPa (hPl b (List.mem_cons_self b l)) (hPl y (List.mem_cons_of_mem b hy)) h (hb y hy)
    · have hba : le b a = true := (htot a b).resolve_left h
      simp only [ordInsert, h, if_false]
      refine List.pairwise_cons.mpr ⟨?_, ?_⟩
      · intro y hy
        rcases (mem_ordInsert le a y l).mp hy with hy | hy
        · exact hy ▸ hba
        · exact hb y hy
      · exact ih (fun x hx => hPl x (List.mem_cons_of_mem b hx)) hl

theorem sorted_insSort {α : Type} (le : α → α → Bool) (P : α → Prop)
    (htot : ∀ a b, le a b = true ∨ le b a = true)
    (htr : ∀ a b c, P a → P b → P c → le a b = true → le b c = true → le a c = true)
    (l : List α) (hP : ∀ x ∈ l, P x) :
    (insSort le l).Pairwise (fun x y => le x y = true) := by
  induction l with
  | nil => simp [insSort]
  | cons a l ih =>
    refine sorted_ordInsert le P htot htr a (insSort le l)
      (hP a (List.mem_cons_self a l)) ?_ ?_
    · intro x hx
      exact hP x (List.mem_cons_of_mem a ((perm_insSort le l).mem_iff.mp hx))
    · exact ih (fun x hx => hP x (List.mem_cons_of_mem a hx))

theorem cmpLe_total (k : String) (d : Dir) (a b : Obj) :
    cmpLe k d a b = true ∨ cmpLe k d b a = true := by
  unfold cmpLe sortCmp
  cases hx : numCoerce (getField a k) with
  | none => cases hy : numCoerce (getField b k) <;> simp
  | some x =>
    cases hy : numCoerce (getField b k) with
    | none => simp
    | some y =>
      simp only [decide_eq_true_eq]
      cases d <;> simp only [Dir.toInt] <;> omega

theorem cmpLe_trans (k : String) (d : Dir) (a b c : Obj)
    (ha : (numCoerce (getField a k)).isSome)
    (hb : (numCoerce (getField b k)).isSome)
    (hc : (numCoerce (getField c k)).isSome)
    (hab : cmpLe k d a b = true) (hbc : cmpLe k d b c = true) :
    cmpLe k d a c = true := by
  unfold cmpLe sortCmp at *
  rcases Option.isSome_iff_exists.mp ha with ⟨x, hx⟩
  rcases Option.isSome_iff_exists.mp hb with ⟨y, hy⟩
  rcases Option.isSome_iff_exists.mp hc with ⟨z, hz⟩
  rw [hx, hy] at hab
  rw [hy, hz] at hbc
  rw [hx, hz]
  simp only [decide_eq_true_eq] at *
  cases d <;> simp only [Dir.toInt] at * <;> omega

theorem hasKey_append (o1 o2 : Obj) (k : String) :
    hasKey (o1 ++ o2) k = (hasKey o1 k || hasKey o2 k) := by
  simp [hasKey, List.any_append]

theorem setField_of_not_hasKey (o : Obj) (k : String) (v : JVal)
    (h : hasKey o k = false) : setField o k v = o ++ [(k, v)] := by
  simp [setField, h]

theorem foldl_setField (v : Obj) (ks : List String) (acc : Obj)
    (hnd : ks.Nodup) (hacc : ∀ k ∈ ks, hasKey acc k = false) :
    ks.foldl (fun obj key => setField obj key (getField v key)) acc
      = acc ++ ks.map (fun k => (k, getField v k)) := by
  induction ks generalizing acc with
  | nil => simp
  | cons k ks ih =>
    have hk : hasKey acc k = false := hacc k (List.mem_cons_self k ks)
    have h1 : List.foldl (fun obj key => setField obj key (getField v key)) acc (k :: ks)
        = List.foldl (fun obj key => setField obj key (getField v key))
            (acc ++ [(k, getField v k)]) ks := by
      simp [List.foldl_cons, setField_of_not_hasKey acc k _ hk]
    have hacc2 : ∀ k2 ∈ ks, hasKey (acc ++ [(k, getField v k)]) k2 = false := by
      intro k2 hk2
      rw [hasKey_append, hacc k2 (List.mem_cons_of_mem k hk2)]
      have hne : k ≠ k2 := by
        intro he
        exact (List.nodup_cons.mp hnd).1 (he ▸ hk2)
      simp [hasKey, hne]
    rw [h1, ih (acc ++ [(k, getField v k)]) (List.Nodup.of_cons hnd) hacc2]
    simp

theorem projectOne_eq_map (ks : List String) (v : Obj) (hnd : ks.Nodup) :
    projectOne ks v = ks.map (fun k => (k, getField v k)) := by
  have h := foldl_setField v ks [] hnd (by intro k _; simp [hasKey])
  simpa [projectOne] using h

theorem getField_map_self (ks : List String) (f : String → JVal) (k : String)
    (hk : k ∈ ks) : getField (ks.map (fun k2 => (k2, f k2))) k = f k := by
  induction ks with
  | nil => cases hk
  | cons a ks ih =>
    by_cases h : a = k
    · subst h
      simp [getField, List.find?]
    · rcases List.mem_cons.mp hk with hk2 | hk2
      · exact absurd hk2.symm h
      · simp only [List.map_cons, getField, List.find?]
        have : (decide ((a, f a).1 = k)) = false := by simp [h]
        rw [this]
        exact ih hk2

theorem lookupEntry_map_self (ks : List String) (f : String → JVal) (k : String)
    (hk : k ∈ ks) : lookupEntry (ks.map (fun k2 => (k2, f k2))) k = some (f k) := by
  induction ks with
  | nil => cases hk
  | cons a ks ih =>
    by_cases h : a = k
    · subst h
      simp [lookupEntry, List.find?]
    · rcases List.mem_cons.mp hk with hk2 | hk2
      · exact absurd hk2.symm h
      · simp only [List.map_cons, lookupEntry, List.find?]
        have : (decide ((a, f a).1 = k)) = false := by simp [h]
        rw [this]
        exact ih hk2

theorem getField_eq_undef_of_absent (o : Obj) (k : String)
    (h : lookupEntry o k = Option.none) : getField o k = JVal.undef := by
  unfold lookupEntry at h
  unfold getField
  cases hf : o.find? (fun p => p.1 = k) with
  | none => rfl
  | some p => rw [hf] at h; cases h

theorem parseAll_error_iff (l : List (List Char)) :
    (∃ e, parseAll l = Except.error e) ↔ ∃ v ∈ l, parseJsonObj (v.drop 1) = Option.none := by
  induction l with
  | nil =>
    constructor
    · rintro ⟨e, he⟩; cases he
    · rintro ⟨v, hv, _⟩; cases hv
  | cons v rest ih =>
    constructor
    · rintro ⟨e, he⟩
      unfold parseAll at he
      cases hp : parseJsonObj (v.drop 1) with
      | none => exact ⟨v, List.mem_cons_self v rest, hp⟩
      | some o =>
        rw [hp] at he
        cases hr : parseAll rest with
        | error e2 =>
          rcases ih.mp ⟨e2, hr⟩ with ⟨w, hw, hpw⟩
          exact ⟨w, List.mem_cons_of_mem v hw, hpw⟩
        | ok os => rw [hr] at he; cases he
    · rintro ⟨w, hw, hpw⟩
      rcases List.mem_cons.mp hw with hw | hw
      · subst hw
        refine ⟨DbError.parseError, ?_⟩
        unfold parseAll
        rw [hpw]
      · rcases ih.mpr ⟨w, hw, hpw⟩ with ⟨e, he⟩
        unfold parseAll
        cases hp : parseJsonObj (v.drop 1) with
        | none => exact ⟨DbError.parseError, rfl⟩
        | some o =>
          rw [he]
          exact ⟨e, rfl⟩

theorem parseAll_ok_forall2 (l : List (List Char)) (recs : List Obj)
    (h : parseAll l = Except.ok recs) :
    List.Forall₂ (fun v rec => parseJsonObj (v.drop 1) = some rec) l recs := by
  induction l generalizing recs with
  | nil =>
    unfold parseAll at h
    cases h
    exact List.Forall₂.nil
  | cons v rest ih =>
    unfold parseAll at h
    cases hp : parseJsonObj (v.drop 1) with
    | none => rw [hp] at h; cases h
    | some o =>
      rw [hp] at h
      cases hr : parseAll rest with
      | error e => rw [hr] at h; cases h
      | ok os =>
        rw [hr] at h
        cases h
        exact List.Forall₂.cons hp (ih os hr)

/-! ## The claims -/

/-- C5: loading splits the store text on newlines, retains exactly the
lines whose first character is `'E'`, parses the remainder of each retained
line, and produces the records in file order; on the four-line example
store the query `age $gt 21` returns the Ann record then the Cy record,
the `'X'`-tagged line being excluded. -/
theorem c5_load_retains_E_lines_in_order :
    (∀ (s : String) (recs : List Obj), loadRecords s = Except.ok recs →
      List.Forall₂ (fun v rec => parseJsonObj (v.drop 1) = some rec) (retainedLines s) recs)
    ∧ loadRecords store8 = Except.ok [annR, boR, cyR]
    ∧ find (some store8) [QueryEntry.qField "age" gt21Rule] Option.none
        = Except.ok [annR, cyR] :=
  ⟨fun s recs h => parseAll_ok_forall2 (retainedLines s) recs h, rfl, rfl⟩

/-- Witness for C5: the pointwise-parse correspondence instantiated on the
example store. -/
theorem c5_load_retains_E_lines_in_order_witness :
    List.Forall₂ (fun v rec => parseJsonObj (v.drop 1) = some rec)
      (retainedLines store8) [annR, boR, cyR] :=
  c5_load_retains_E_lines_in_order.1 store8 [annR, boR, cyR] (by rfl)

/-- C6: the `$and` combinator with an empty rule-set array is the
identity: every record passes vacuously and the input comes back
unchanged, in the same order. -/
theorem c6_and_empty_identity (arr : List Obj) : andComb arr [] = arr := by
  simp [andComb]

/-- C7: the `$or` combinator with an empty rule-set array keeps no record,
since no alternative is satisfied. -/
theorem c7_or_empty_keeps_nothing (arr : List Obj) : orComb arr [] = [] := by
  simp [orComb]

/-- C1 (behaviour at the failing input): the two section-8 examples hold
(`"ann"` keeps only the Ann record, `"an"` keeps nothing), but on a store
whose two records both hold the string `"ann"` the `$text` filter keeps
only the first: the global regex's `lastIndex` is left at the end of the
first match, so the test on the second record resumes past the word and
fails.  The claim requires both records to be kept. -/
theorem c1_text_search_behavior :
    find (some store8) [QueryEntry.qText "ann"] Option.none = Except.ok [annR]
    ∧ find (some store8) [QueryEntry.qText "an"] Option.none = Except.ok []
    ∧ find (some twoAnnStore) [QueryEntry.qText "ann"] Option.none
        = Except.ok [annLowerR] :=
  ⟨rfl, rfl, rfl⟩

/-- C2 counterexample: sorting `[annR, boR]` ascending by age leaves the
argument array holding `[boR, annR]` — the array it was given is reordered
in place, and the returned array is that same array, not a new one. -/
theorem c2_sort_mutation_counterexample :
    (sortCall [annR, boR] [("age", Dir.asc)]).argAfter ≠ [annR, boR]
    ∧ (sortCall [annR, boR] [("age", Dir.asc)]).returnsNewArray = false := by
  constructor
  · decide
  · rfl

/-- C2 (amended): the filtering stages are pure, but `sort` reorders the
array it is given in place and returns that very array rather than a new
one; the in-place contents after the call are exactly the returned
reordering, a permutation of the previous contents. -/
theorem c2_sort_in_place_amended (arr : List Obj) (opt : List (String × Dir)) :
    (sortCall arr opt).returnsNewArray = false
    ∧ (sortCall arr opt).argAfter = (sortCall arr opt).result
    ∧ (sortCall arr opt).argAfter.Perm arr :=
  ⟨rfl, rfl, perm_sortContents opt arr⟩

/-- C3: with several sort fields the engine performs one stable
single-field pass per listed field, each applied to the previous pass's
output, so the final result is ordered by the last listed field's
comparator (ascending for direction 1, descending for -1, by numeric
coercion) and is a permutation of the input — not a composite
lexicographic ordering. -/
theorem c3_last_sort_field_dominates (ks : List (String × Dir)) (k : String) (d : Dir)
    (arr : List Obj)
    (hnum : ∀ r ∈ arr, (numCoerce (getField r k)).isSome = true) :
    sortContents arr (ks ++ [(k, d)]) = sortOnePass k d (sortContents arr ks)
    ∧ (sortContents arr (ks ++ [(k, d)])).Pairwise (fun a b => cmpLe k d a b = true)
    ∧ (sortContents arr (ks ++ [(k, d)])).Perm arr := by
  have h1 : sortContents arr (ks ++ [(k, d)]) = sortOnePass k d (sortContents arr ks) := by
    unfold sortContents
    rw [List.foldl_append]
    rfl
  refine ⟨h1, ?_, perm_sortContents (ks ++ [(k, d)]) arr⟩
  rw [h1]
  have hP : ∀ x ∈ sortContents arr ks, (numCoerce (getField x k)).isSome = true := by
    intro x hx
    exact hnum x ((perm_sortContents ks arr).mem_iff.mp hx)
  exact sorted_insSort (cmpLe k d) (fun r => (numCoerce (getField r k)).isSome = true)
    (cmpLe_total k d)
    (fun a b c ha hb hc hab hbc => cmpLe_trans k d a b c ha hb hc hab hbc)
    (sortContents arr ks) hP

/-- Witness for C3: on two numeric records, sorting ascending by `a` then
by `b` yields the order dictated by `b` alone (the input order here),
whereas a composite key `(a, b)` would have swapped the records. -/
theorem c3_last_sort_field_dominates_witness :
    ((sortContents [recA2B1, recA1B2] ([("a", Dir.asc)] ++ [("b", Dir.asc)])).Pairwise
        (fun a b => cmpLe "b" Dir.asc a b = true))
    ∧ sortContents [recA2B1, recA1B2] [("a", Dir.asc), ("b", Dir.asc)]
        = [recA2B1, recA1B2]
    ∧ sortContents [recA2B1, recA1B2] [("a", Dir.asc)] = [recA1B2, recA2B1] := by
  refine ⟨(c3_last_sort_field_dominates [("a", Dir.asc)] "b" Dir.asc
    [recA2B1, recA1B2] (by decide)).2.1, by decide, by decide⟩

/-- C4: `find` yields a rejection exactly when the backing store cannot be
read or the payload of some retained `'E'`-tagged line fails to parse; in
the `Except` model a rejection carries no records at all (no partial
delivery) and an `ok` carries the complete result array. -/
theorem c4_find_failure_iff (fs : Option String) (q : Query) (opts : Option EndRule) :
    (∃ e, find fs q opts = Except.error e) ↔
      (fs = Option.none
        ∨ ∃ s, fs = some s
            ∧ ∃ v ∈ retainedLines s, parseJsonObj (v.drop 1) = Option.none) := by
  have find_some : ∀ (s : String), find (some s) q opts =
      (match loadRecords s with
        | Except.error e => Except.error e
        | Except.ok sqlData =>
          Except.ok (match opts with
            | some o => endHeadless (runQuery sqlData q) o
            | Option.none => runQuery sqlData q)) := fun _ => rfl
  cases fs with
  | none =>
    constructor
    · intro _
      exact Or.inl rfl
    · intro _
      exact ⟨DbError.ioError, rfl⟩
  | some s =>
    constructor
    · rintro ⟨e, he⟩
      rw [find_some s] at he
      cases hl : loadRecords s with
      | error e2 =>
        exact Or.inr ⟨s, rfl, (parseAll_error_iff (retainedLines s)).mp ⟨e2, hl⟩⟩
      | ok data =>
        rw [hl] at he
        cases he
    · rintro (h | ⟨s2, hs2, hline⟩)
      · cases h
      · have hss : s = s2 := by
          injection hs2
        subst hss
        rcases (parseAll_error_iff (retainedLines s)).mpr hline with ⟨e, he⟩
        refine ⟨e, ?_⟩
        have hl : loadRecords s = Except.error e := he
        rw [find_some s, hl]

/-- C8: predicate evaluation is total (every operator is a total boolean
function in this embedding), and an operator applied to a field whose
runtime type it does not expect evaluates to `false`: `$gt`/`$lt` on any
non-number field, `$eq`/`$in` on any field that is neither a string nor a
number (including absent fields, whose lookup yields `undefined`). -/
theorem c8_type_mismatch_is_false (data : Obj) (key : String) :
    ((getField data key).isNum = false →
        (∀ v, opGt data key v = false) ∧ (∀ v, opLt data key v = false))
    ∧ ((getField data key).isStr = false → (getField data key).isNum = false →
        (∀ v, opEq data key v = false) ∧ (∀ l, opIn data key l = false)) := by
  constructor
  · intro h
    refine ⟨fun v => ?_, fun v => ?_⟩ <;>
      cases hg : getField data key <;> simp_all [opGt, opLt, JVal.isNum]
  · intro hs hn
    refine ⟨fun v => ?_, fun l => ?_⟩ <;>
      cases hg : getField data key <;> simp_all [opEq, opIn, JVal.isNum, JVal.isStr]

/-- Witness for C8: on a record whose `flag` field holds a boolean and
whose `age` field is absent, every operator yields `false`. -/
theorem c8_type_mismatch_is_false_witness :
    opGt [("flag", JVal.bool true)] "flag" 0 = false
    ∧ opLt [("flag", JVal.bool true)] "age" 0 = false
    ∧ opEq [("flag", JVal.bool true)] "flag" (JVal.num 1) = false
    ∧ opIn [("flag", JVal.bool true)] "age" [JVal.num 1] = false :=
  ⟨((c8_type_mismatch_is_false [("flag", JVal.bool true)] "flag").1 (by decide)).1 0,
   ((c8_type_mismatch_is_false [("flag", JVal.bool true)] "age").1 (by decide)).2 0,
   ((c8_type_mismatch_is_false [("flag", JVal.bool true)] "flag").2 (by decide) (by decide)).1
     (JVal.num 1),
   ((c8_type_mismatch_is_false [("flag", JVal.bool true)] "age").2 (by decide) (by decide)).2
     [JVal.num 1]⟩

/-- C9: projection is idempotent — projecting an already projected result
with the same field list changes nothing (the listed keys of a projection
are the keys of a query object, hence pairwise distinct). -/
theorem c9_projection_idempotent (arr : List Obj) (opt : List (String × Dir))
    (hnd : (opt.map (fun p => p.1)).Nodup) :
    projection (projection arr opt) opt = projection arr opt := by
  unfold projection
  rw [List.map_map]
  have hgg : ∀ v : Obj,
      projectOne (opt.map (fun p => p.1)) (projectOne (opt.map (fun p => p.1)) v)
        = projectOne (opt.map (fun p => p.1)) v := by
    intro v
    rw [projectOne_eq_map _ v hnd, projectOne_eq_map _ _ hnd]
    apply List.map_congr_left
    intro k hk
    rw [getField_map_self (opt.map (fun p => p.1)) (fun k2 => getField v k2) k hk]
  have hc : projectOne (opt.map (fun p => p.1)) ∘ projectOne (opt.map (fun p => p.1))
      = projectOne (opt.map (fun p => p.1)) := funext hgg
  rw [hc]

/-- Witness for C9: projecting the Ann record onto `name` twice equals
projecting once. -/
theorem c9_projection_idempotent_witness :
    (([("name", Dir.asc)] : List (String × Dir)).map (fun p => p.1)).Nodup
    ∧ projection (projection [annR] [("name", Dir.asc)]) [("name", Dir.asc)]
        = projection [annR] [("name", Dir.asc)] :=
  ⟨by decide, c9_projection_idempotent [annR] [("name", Dir.asc)] (by decide)⟩

/-- C10: the key set of a projected object is exactly the listed field
list, in listed order; each listed key maps to whatever the lookup on the
source record yields, so a listed field absent from the record appears as
an explicitly present `undefined`-valued entry rather than being omitted. -/
theorem c10_projection_key_set (ks : List String) (v : Obj) (hnd : ks.Nodup) :
    (projectOne ks v).map (fun p => p.1) = ks
    ∧ (∀ k ∈ ks, lookupEntry (projectOne ks v) k = some (getField v k))
    ∧ (∀ k ∈ ks, lookupEntry v k = Option.none →
        lookupEntry (projectOne ks v) k = some JVal.undef) := by
  have hpe := projectOne_eq_map ks v hnd
  refine ⟨?_, ?_, ?_⟩
  · rw [hpe, List.map_map]
    show List.map (fun k => k) ks = ks
    exact List.map_id ks
  · intro k hk
    rw [hpe]
    exact lookupEntry_map_self ks (fun k2 => getField v k2) k hk
  · intro k hk habs
    rw [hpe, lookupEntry_map_self ks (fun k2 => getField v k2) k hk,
      getField_eq_undef_of_absent v k habs]

/-- Witness for C10: projecting the Ann record onto `name` and the absent
field `missing` yields exactly those two keys, the absent one carried as a
present `undefined` entry. -/
theorem c10_projection_key_set_witness :
    (["name", "missing"] : List String).Nodup
    ∧ lookupEntry (projectOne ["name", "missing"] annR) "missing" = some JVal.undef
    ∧ (projectOne ["name", "missing"] annR).map (fun p => p.1) = ["name", "missing"] :=
  ⟨by decide,
   (c10_projection_key_set ["name", "missing"] annR (by decide)).2.2 "missing"
     (by decide) (by rfl),
   (c10_projection_key_set ["name", "missing"] annR (by decide)).1⟩
